import Mathlib

/-!
Verification of the color-density / joint-probability core of `libseg`.

The file embeds, over `ℕ`-indexed buffers and exact rationals `ℚ`
(standing for the C `float`/`double` values), the two core routines:

* `ColorChannelKDE` — the per-channel density estimator.  Its
  implementation file (`kde.cc`) is not part of the sources at hand, so it
  is modelled from the specification (§4.1): a 256-bin masked histogram,
  an optional median filter over the value axis (the flag is literally
  named `median_filter` in the declaration visible in `main.cc`), then
  normalization by the number of sampled pixels, with the all-zero policy
  for an empty sample.
* `ImageProbability` — `main.cc` lines 97–115, the per-pixel joint
  probability map obtained by multiplying the three per-channel density
  lookups.

Channel buffers and masks are embedded as functions `ℕ → ℕ` (a pixel
index to its 8-bit value); image extents `W H : ℕ` bound the scanned
index range, exactly as the C code scans `i = 0 .. W*H-1`.
-/

/-- Modelled from the spec: the number of sampled pixels, i.e. the pixels
`i < W*H` whose mask value is non-zero (§3 "Sample mask"). This is the
normalization denominator of §4.1 step 3. -/
def nsamples (mask : ℕ → ℕ) (W H : ℕ) : ℕ :=
  (List.range (W * H)).countP fun i => mask i != 0

/-- Modelled from the spec: §4.1 step 1, the 256-bin count histogram.
Bin `v` holds the number of pixels `i < W*H` with `mask i ≠ 0` and
`channel i = v`; pixels outside the mask contribute nothing. -/
def histogram (channel mask : ℕ → ℕ) (W H : ℕ) : List ℕ :=
  (List.range 256).map fun v =>
    (List.range (W * H)).countP fun i => mask i != 0 && channel i == v

/-- Modelled from the spec: the median of three natural numbers, the
elementary step of the windowed median filter of §4.1 step 2. -/
def median3 (a b c : ℕ) : ℕ :=
  a + b + c - max a (max b c) - min a (min b c)

/-- Modelled from the spec: §4.1 step 2, a width-3 windowed median filter
over the value axis of the histogram, with edge replication at both ends
(the window at position `i` reads positions `i-1`, `i`, `i+1`, clamped
to the histogram). This realizes the "windowed median or similar rank
filter" the spec describes for the missing `kde.cc`. -/
def medianFilter (h : List ℕ) : List ℕ :=
  (List.range h.length).map fun i =>
    median3 (h.getD (i - 1) 0) (h.getD i 0) (h.getD (i + 1) (h.getD i 0))

/-- Modelled from the spec: the density estimator `ColorChannelKDE`
declared in `kde.h` and called from `main.cc`; its implementation is not
among the sources at hand, so it follows §4.1 steps 1–4 literally:
build the masked histogram, optionally median-filter it, then divide
every bin by the sample count.  Empty-sample policy (§4.1 step 4): if
the mask selects zero pixels the result is the all-zero 256-entry
density (no division happens). -/
def ColorChannelKDE (channel mask : ℕ → ℕ) (W H : ℕ)
    (median_filter : Bool) : List ℚ :=
  let hist := histogram channel mask W H
  let hist2 := if median_filter then medianFilter hist else hist
  let n := nsamples mask W H
  if n = 0 then List.replicate 256 0
  else hist2.map fun k : ℕ => (k : ℚ) / (n : ℚ)

/-- The joint-probability loop of `main.cc` lines 107–114, parameterized
by the three per-channel densities `d`: entry `i` of the output is
`d 0 [channels 0 i] * d 1 [channels 1 i] * d 2 [channels 2 i]`. -/
def JointProbabilityFromDensities (d : Fin 3 → List ℚ)
    (channels : Fin 3 → ℕ → ℕ) (W H : ℕ) : List ℚ :=
  (List.range (W * H)).map fun i =>
    (d 0).getD (channels 0 i) 0 *
    (d 1).getD (channels 1 i) 0 *
    (d 2).getD (channels 2 i) 0

/-- `ImageProbability` from `main.cc` lines 97–115: compute one density
per channel by calling `ColorChannelKDE` with the shared mask and the
median-filter flag hardcoded to `true` (line 104), then fill the W*H
output with the per-pixel product of density lookups. -/
def ImageProbability (channels : Fin 3 → ℕ → ℕ) (mask : ℕ → ℕ)
    (W H : ℕ) : List ℚ :=
  let probs : Fin 3 → List ℚ :=
    fun c => ColorChannelKDE (channels c) mask W H true
  (List.range (W * H)).map fun i =>
    (probs 0).getD (channels 0 i) 0 *
    (probs 1).getD (channels 1 i) 0 *
    (probs 2).getD (channels 2 i) 0

/-- Follows the spec words (§4.2 contract), for refinement comparison
with `ImageProbability`: a joint-probability routine that exposes a
caller-chosen `smoothing` flag, passed to every per-channel density
estimation. -/
def jointProbabilitySpec (channels : Fin 3 → ℕ → ℕ) (mask : ℕ → ℕ)
    (W H : ℕ) (smoothing : Bool) : List ℚ :=
  JointProbabilityFromDensities
    (fun c => ColorChannelKDE (channels c) mask W H smoothing)
    channels W H

/-- The pixel indices `ImageProbability` dereferences in every channel
buffer and in the mask: both the density pass and the joint pass scan
`i = 0 .. W*H-1` unconditionally (`main.cc` lines 103–113), with no
bounds or dimension check. -/
def ImageProbabilityReads (W H : ℕ) : List ℕ :=
  List.range (W * H)

/-- Memory-safety view of `ImageProbability` over length-carrying
buffers: the C routine receives raw pointers and a single `W`, `H` and
dereferences every index in `ImageProbabilityReads W H` in each buffer,
so the run is well-defined exactly when every buffer has at least `W*H`
entries; a shorter buffer makes the routine read past its end, modelled
as `none` (undefined behavior, not an error report). -/
def ImageProbabilityChecked (channels : Fin 3 → List ℕ) (mask : List ℕ)
    (W H : ℕ) : Option (List ℚ) :=
  if W * H ≤ mask.length ∧ ∀ c : Fin 3, W * H ≤ (channels c).length then
    some (ImageProbability (fun c i => (channels c).getD i 0)
      (fun i => mask.getD i 0) W H)
  else none

/-- State of the imperative run of `ImageProbability`: the (read-only)
input buffers, the output buffer `outimg`, and the trace of output
indices written so far. -/
structure RunState where
  channels : Fin 3 → ℕ → ℕ
  mask : ℕ → ℕ
  outimg : List ℚ
  trace : List ℕ

/-- One iteration of the output loop of `main.cc` lines 107–114: store
the product of the three density lookups at pixel `i` into `outimg[i]`
and record the write.  The input buffers are only read. -/
def ImageProbabilityStep (probs : Fin 3 → List ℚ) (st : RunState)
    (i : ℕ) : RunState :=
  { st with
    outimg := st.outimg.set i
      ((probs 0).getD (st.channels 0 i) 0 *
       (probs 1).getD (st.channels 1 i) 0 *
       (probs 2).getD (st.channels 2 i) 0),
    trace := st.trace ++ [i] }

/-- The imperative run of `ImageProbability`: starting from the caller's
buffers and an initial output buffer `out0`, compute the three densities
and execute the write loop for `i = 0 .. W*H-1`. -/
def ImageProbabilityRun (channels : Fin 3 → ℕ → ℕ) (mask : ℕ → ℕ)
    (W H : ℕ) (out0 : List ℚ) : RunState :=
  (List.range (W * H)).foldl
    (ImageProbabilityStep fun c => ColorChannelKDE (channels c) mask W H true)
    ⟨channels, mask, out0, []⟩

/-- Test fixture: a 1-pixel image whose three channel values are all 10. -/
def chTen : Fin 3 → ℕ → ℕ := fun _ _ => 10

/-- Test fixture: a 1-pixel image with channel values `(10, 20, 30)`. -/
def chTriple : Fin 3 → ℕ → ℕ := fun c _ => 10 * ((c : ℕ) + 1)

/-- Test fixture: a mask selecting every pixel. -/
def oneMask : ℕ → ℕ := fun _ => 1

/-- Test fixture: a mask selecting no pixel. -/
def zeroMask : ℕ → ℕ := fun _ => 0

/-- Test fixture: the 2×2 scenario channel `[0, 0, 255, 255]` of §8. -/
def ch2x2 : ℕ → ℕ := fun i => if i < 2 then 0 else 255

/-- Test fixture: the 2×2 scenario mask `[1, 1, 0, 0]` of §8. -/
def mask2x2 : ℕ → ℕ := fun i => if i < 2 then 1 else 0

/-- Test fixture: three length-carrying channel buffers for a 2×1 image
in which channel 0 is one entry short. -/
def chShort : Fin 3 → List ℕ := fun c => if c = 0 then [5] else [5, 5]

/-- Test fixture: a length-2 all-selecting mask buffer. -/
def maskTwo : List ℕ := [1, 1]

/-- Test fixture: a constant density with every entry 1/2. -/
def halfDensity : List ℚ := List.replicate 256 (1 / 2)

/-! ## Basic list lemmas -/

/-- Reading a mapped range with a default: in range it is `f j`,
out of range the default. -/
theorem getD_map_range {α : Type} (f : ℕ → α) (m j : ℕ) (d : α) :
    ((List.range m).map f).getD j d = if j < m then f j else d := by
  rcases Nat.lt_or_ge j m with h | h
  · have hl : j < ((List.range m).map f).length := by simpa using h
    rw [if_pos h, List.getD_eq_getElem _ _ hl]
    simp
  · rw [if_neg (Nat.not_lt.mpr h), List.getD_eq_default]
    simpa using h

/-- Summing a function mapped over `List.range` is a `Finset.range` sum. -/
theorem sum_map_range_eq {M : Type} [AddCommMonoid M] (f : ℕ → M) (m : ℕ) :
    ((List.range m).map f).sum = ∑ u ∈ Finset.range m, f u := by
  induction m with
  | zero => simp
  | succ k ih =>
      rw [List.range_succ, List.map_append, List.sum_append,
        Finset.sum_range_succ, ih]
      simp

/-- Partitioning a masked count by the (bounded) value of `ch`:
summing the per-bin counts over all bins recovers the selected count. -/
theorem countP_bins (ch : ℕ → ℕ) (sel : ℕ → Bool) (m : ℕ) (l : List ℕ)
    (h : ∀ i ∈ l, sel i = true → ch i < m) :
    (∑ u ∈ Finset.range m, l.countP fun i => sel i && ch i == u)
      = l.countP sel := by
  induction l with
  | nil => simp
  | cons a t ih =>
      have ht : ∀ i ∈ t, sel i = true → ch i < m :=
        fun i hi => h i (List.mem_cons_of_mem a hi)
      simp only [List.countP_cons]
      rw [Finset.sum_add_distrib, ih ht]
      congr 1
      by_cases hsel : sel a = true
      · have hch : ch a ∈ Finset.range m :=
          Finset.mem_range.mpr (h a (List.mem_cons_self a t) hsel)
        rw [show (∑ u ∈ Finset.range m,
            if (sel a && ch a == u) = true then 1 else 0) =
            ∑ u ∈ Finset.range m, if ch a = u then 1 else 0 from
          Finset.sum_congr rfl fun u _ => by simp [hsel]]
        rw [Finset.sum_ite_eq (Finset.range m) (ch a) fun _ => 1]
        simp [hch, hsel]
      · have hfalse : sel a = false := by
          cases hsa : sel a
          · rfl
          · exact absurd hsa hsel
        simp [hfalse]

/-! ## Histogram and sample-count lemmas -/

/-- With 8-bit channel values, the histogram bins partition the sampled
pixels: the bin counts sum to the sample count. -/
theorem histogram_sum (ch mask : ℕ → ℕ) (W H : ℕ)
    (h8 : ∀ i, i < W * H → ch i < 256) :
    (histogram ch mask W H).sum = nsamples mask W H := by
  unfold histogram nsamples
  rw [sum_map_range_eq]
  exact countP_bins ch (fun i => mask i != 0) 256 (List.range (W * H))
    fun i hi _ => h8 i (List.mem_range.mp hi)

/-- The histogram has one bin per possible 8-bit value. -/
theorem histogram_length (ch mask : ℕ → ℕ) (W H : ℕ) :
    (histogram ch mask W H).length = 256 := by
  simp [histogram]

/-- If no pixel is selected, the sample count is zero. -/
theorem nsamples_eq_zero (mask : ℕ → ℕ) (W H : ℕ)
    (h : ∀ i, i < W * H → mask i = 0) : nsamples mask W H = 0 := by
  unfold nsamples
  rw [List.countP_eq_zero]
  intro i hi
  simp [h i (List.mem_range.mp hi)]

/-- If some pixel is selected, the sample count is non-zero. -/
theorem nsamples_ne_zero (mask : ℕ → ℕ) (W H : ℕ)
    (hex : ∃ i, i < W * H ∧ mask i ≠ 0) : nsamples mask W H ≠ 0 := by
  obtain ⟨i, hi, hm⟩ := hex
  unfold nsamples
  have : 0 < (List.range (W * H)).countP fun i => mask i != 0 := by
    rw [List.countP_pos_iff]
    exact ⟨i, List.mem_range.mpr hi, by simpa using hm⟩
  omega

/-- If exactly one pixel is selected, the sample count is one. -/
theorem nsamples_unique (mask : ℕ → ℕ) (W H i₀ : ℕ)
    (hi : i₀ < W * H) (hm : mask i₀ ≠ 0)
    (huniq : ∀ j, j < W * H → mask j ≠ 0 → j = i₀) :
    nsamples mask W H = 1 := by
  unfold nsamples
  have hcong : (List.range (W * H)).countP (fun i => mask i != 0)
      = (List.range (W * H)).countP fun j => j == i₀ := by
    refine List.countP_congr fun j hj => ?_
    rcases Nat.decEq j i₀ with hne | heq
    · have hz : mask j = 0 := by
        by_contra hmj
        exact hne (huniq j (List.mem_range.mp hj) hmj)
      simp [hz, hne]
    · subst heq
      simp [hm]
  have hcount : (List.range (W * H)).countP (fun j => j == i₀)
      = (List.range (W * H)).count i₀ := rfl
  rw [hcong, hcount]
  exact List.count_eq_one_of_mem (List.nodup_range _) (List.mem_range.mpr hi)

/-- If every selected pixel has the same channel value `v`, the histogram
is concentrated at bin `v` with the full sample count. -/
theorem histogram_const (ch mask : ℕ → ℕ) (W H v : ℕ)
    (hall : ∀ i, i < W * H → mask i ≠ 0 → ch i = v) :
    histogram ch mask W H =
      (List.range 256).map fun u => if u = v then nsamples mask W H else 0 := by
  unfold histogram nsamples
  refine List.map_congr_left fun u _ => ?_
  by_cases huv : u = v
  · subst huv
    rw [if_pos rfl]
    refine List.countP_congr fun i hi => ?_
    rcases hmi : mask i != 0 with _ | _
    · simp [hmi]
    · have hne : mask i ≠ 0 := by simpa using hmi
      have hcv := hall i (List.mem_range.mp hi) hne
      simp [hmi, hcv]
  · rw [if_neg huv, List.countP_eq_zero]
    intro i hi
    rcases hmi : mask i != 0 with _ | _
    · simp [hmi]
    · have hne : mask i ≠ 0 := by simpa using hmi
      have hcv := hall i (List.mem_range.mp hi) hne
      have hvu : ¬v = u := fun h => huv h.symm
      simp [hmi, hcv, hvu]

/-! ## Density estimator lemmas -/

/-- Branch-level unfolding of `ColorChannelKDE`. -/
theorem ColorChannelKDE_eq (ch mask : ℕ → ℕ) (W H : ℕ) (mf : Bool) :
    ColorChannelKDE ch mask W H mf =
      if nsamples mask W H = 0 then List.replicate 256 0
      else (if mf then medianFilter (histogram ch mask W H)
            else histogram ch mask W H).map
        fun k : ℕ => (k : ℚ) / (nsamples mask W H : ℚ) := rfl

/-- The median filter preserves the histogram length. -/
theorem medianFilter_length (h : List ℕ) :
    (medianFilter h).length = h.length := by
  simp [medianFilter]

/-- The density always has exactly 256 entries (one per 8-bit value). -/
theorem ColorChannelKDE_length (ch mask : ℕ → ℕ) (W H : ℕ) (mf : Bool) :
    (ColorChannelKDE ch mask W H mf).length = 256 := by
  rw [ColorChannelKDE_eq]
  by_cases hn : nsamples mask W H = 0
  · rw [if_pos hn, List.length_replicate]
  · rw [if_neg hn, List.length_map]
    cases mf
    · exact histogram_length ch mask W H
    · rw [if_pos rfl, medianFilter_length]
      exact histogram_length ch mask W H

/-- Every density entry is non-negative. -/
theorem ColorChannelKDE_nonneg (ch mask : ℕ → ℕ) (W H : ℕ) (mf : Bool) :
    ∀ x ∈ ColorChannelKDE ch mask W H mf, 0 ≤ x := by
  intro x hx
  rw [ColorChannelKDE_eq] at hx
  by_cases hn : nsamples mask W H = 0
  · rw [if_pos hn] at hx
    rw [List.eq_of_mem_replicate hx]
  · rw [if_neg hn] at hx
    obtain ⟨k, _, rfl⟩ := List.mem_map.mp hx
    positivity

/-- Reading a list of non-negative entries with default 0 is non-negative. -/
theorem getD_nonneg {l : List ℚ} (hl : ∀ x ∈ l, 0 ≤ x) (j : ℕ) :
    0 ≤ l.getD j 0 := by
  rcases Nat.lt_or_ge j l.length with h | h
  · rw [List.getD_eq_getElem _ _ h]
    exact hl _ (List.getElem_mem h)
  · rw [List.getD_eq_default _ _ h]

/-- Summing rational casts of naturals divided by a constant. -/
theorem sum_map_div (l : List ℕ) (n : ℚ) :
    (l.map fun k : ℕ => (k : ℚ) / n).sum = (l.sum : ℚ) / n := by
  induction l with
  | nil => simp
  | cons a t ih =>
      rw [List.map_cons, List.sum_cons, List.sum_cons, ih]
      push_cast
      rw [add_div]

/-- A median of three values, two of which are zero, is zero. -/
theorem median3_two_zero (a b c : ℕ)
    (h : (a = 0 ∧ b = 0) ∨ (a = 0 ∧ c = 0) ∨ (b = 0 ∧ c = 0)) :
    median3 a b c = 0 := by
  unfold median3
  omega

/-- The width-3 median filter annihilates a histogram concentrated on a
single interior bin: every window sees at least two zeros. -/
theorem medianFilter_indicator (v n : ℕ) (h0 : 0 < v) (h255 : v < 255) :
    medianFilter ((List.range 256).map fun u => if u = v then n else 0)
      = List.replicate 256 0 := by
  unfold medianFilter
  rw [show (((List.range 256).map fun u => if u = v then n else 0)).length
      = 256 by simp]
  refine List.eq_replicate_iff.mpr ⟨by simp, ?_⟩
  intro b hb
  obtain ⟨i, hi, rfl⟩ := List.mem_map.mp hb
  have hi256 : i < 256 := List.mem_range.mp hi
  simp only [getD_map_range]
  unfold median3
  split_ifs <;> omega

/-- Helper for the single-value scenarios: with smoothing disabled and a
non-empty mask under which every selected pixel has value `v < 256`, the
density is the point mass at bin `v`. -/
theorem kde_const_core (ch mask : ℕ → ℕ) (W H v : ℕ)
    (hex : ∃ i, i < W * H ∧ mask i ≠ 0)
    (hall : ∀ i, i < W * H → mask i ≠ 0 → ch i = v) :
    ColorChannelKDE ch mask W H false =
      (List.range 256).map fun u => if u = v then (1 : ℚ) else 0 := by
  have hn : nsamples mask W H ≠ 0 := nsamples_ne_zero mask W H hex
  have hq : ((nsamples mask W H : ℚ)) ≠ 0 := Nat.cast_ne_zero.mpr hn
  rw [ColorChannelKDE_eq, if_neg hn]
  rw [show (if false then medianFilter (histogram ch mask W H)
      else histogram ch mask W H) = histogram ch mask W H from rfl]
  rw [histogram_const ch mask W H v hall]
  rw [List.map_map]
  refine List.map_congr_left fun u _ => ?_
  by_cases huv : u = v
  · simp [huv, div_self hq]
  · simp [huv]

/-- Helper for the spike scenarios: with smoothing enabled and a mask
selecting exactly one pixel, of interior value `v`, the median filter
wipes out the histogram and the density is all-zero. -/
theorem kde_spike_core (ch mask : ℕ → ℕ) (W H i₀ v : ℕ)
    (hi : i₀ < W * H) (hm : mask i₀ ≠ 0)
    (huniq : ∀ j, j < W * H → mask j ≠ 0 → j = i₀)
    (hv : ch i₀ = v) (h0 : 0 < v) (h255 : v < 255) :
    ColorChannelKDE ch mask W H true = List.replicate 256 0 := by
  have hall : ∀ j, j < W * H → mask j ≠ 0 → ch j = v := fun j hj hmj => by
    rw [huniq j hj hmj, hv]
  have hn1 : nsamples mask W H = 1 :=
    nsamples_unique mask W H i₀ hi hm huniq
  rw [ColorChannelKDE_eq, if_neg (by rw [hn1]; exact one_ne_zero)]
  rw [if_pos rfl, histogram_const ch mask W H v hall, hn1,
    medianFilter_indicator v 1 h0 h255]
  rw [List.map_replicate]
  norm_num

/-- Helper: the empty-sample branch returns the all-zero density. -/
theorem kde_empty_core (ch mask : ℕ → ℕ) (W H : ℕ) (mf : Bool)
    (h : ∀ i, i < W * H → mask i = 0) :
    ColorChannelKDE ch mask W H mf = List.replicate 256 0 := by
  rw [ColorChannelKDE_eq, if_pos (nsamples_eq_zero mask W H h)]

/-- Helper: with smoothing disabled and at least one sampled 8-bit pixel,
the density sums to exactly 1. -/
theorem kde_sum_core (ch mask : ℕ → ℕ) (W H : ℕ)
    (h8 : ∀ i, i < W * H → ch i < 256)
    (hex : ∃ i, i < W * H ∧ mask i ≠ 0) :
    (ColorChannelKDE ch mask W H false).sum = 1 := by
  have hn : nsamples mask W H ≠ 0 := nsamples_ne_zero mask W H hex
  have hq : ((nsamples mask W H : ℚ)) ≠ 0 := Nat.cast_ne_zero.mpr hn
  rw [ColorChannelKDE_eq, if_neg hn]
  rw [show (if false then medianFilter (histogram ch mask W H)
      else histogram ch mask W H) = histogram ch mask W H from rfl]
  rw [sum_map_div, histogram_sum ch mask W H h8, div_self hq]

/-! ## Joint probability and the imperative run -/

/-- `ImageProbability` is the joint loop applied to the three densities
computed with the shared mask and smoothing on. -/
theorem ImageProbability_unfold (channels : Fin 3 → ℕ → ℕ)
    (mask : ℕ → ℕ) (W H : ℕ) :
    ImageProbability channels mask W H =
      JointProbabilityFromDensities
        (fun c => ColorChannelKDE (channels c) mask W H true)
        channels W H := rfl

/-- The write loop never touches the channel buffers. -/
theorem foldl_step_channels (probs : Fin 3 → List ℚ) (l : List ℕ)
    (st : RunState) :
    (l.foldl (ImageProbabilityStep probs) st).channels = st.channels := by
  induction l generalizing st with
  | nil => rfl
  | cons a t ih => rw [List.foldl_cons, ih]; rfl

/-- The write loop never touches the mask buffer. -/
theorem foldl_step_mask (probs : Fin 3 → List ℚ) (l : List ℕ)
    (st : RunState) :
    (l.foldl (ImageProbabilityStep probs) st).mask = st.mask := by
  induction l generalizing st with
  | nil => rfl
  | cons a t ih => rw [List.foldl_cons, ih]; rfl

/-- The write loop records exactly the loop indices, in order. -/
theorem foldl_step_trace (probs : Fin 3 → List ℚ) (l : List ℕ)
    (st : RunState) :
    (l.foldl (ImageProbabilityStep probs) st).trace = st.trace ++ l := by
  induction l generalizing st with
  | nil => simp
  | cons a t ih =>
      rw [List.foldl_cons, ih]
      simp [ImageProbabilityStep]

/-- Setting at the length of the left part of an append updates the
right part. -/
theorem set_append_left_length {α : Type} (l₁ l₂ : List α) (a : α) :
    (l₁ ++ l₂).set l₁.length a = l₁ ++ l₂.set 0 a := by
  induction l₁ with
  | nil => rfl
  | cons b t ih => simp only [List.cons_append, List.length_cons,
      List.set_cons_succ, ih]

/-- Version of `set_append_left_length` keyed on a length hypothesis. -/
theorem set_append_of_length {α : Type} (l₁ l₂ : List α) (a : α) (n : ℕ)
    (h : l₁.length = n) :
    (l₁ ++ l₂).set n a = l₁ ++ l₂.set 0 a := by
  subst h
  exact set_append_left_length l₁ l₂ a

/-- Invariant of the write loop: after the first `k` iterations the
output holds the computed products on `[0, k)` and the untouched initial
suffix beyond. -/
theorem run_out_aux (probs : Fin 3 → List ℚ) (channels : Fin 3 → ℕ → ℕ)
    (mask : ℕ → ℕ) (out0 : List ℚ) (k : ℕ) (hk : k ≤ out0.length) :
    ((List.range k).foldl (ImageProbabilityStep probs)
        ⟨channels, mask, out0, []⟩).outimg
      = ((List.range k).map fun i =>
          (probs 0).getD (channels 0 i) 0 *
          (probs 1).getD (channels 1 i) 0 *
          (probs 2).getD (channels 2 i) 0)
        ++ out0.drop k := by
  induction k with
  | zero => simp
  | succ m ih =>
      have hm : m ≤ out0.length := Nat.le_of_succ_le hk
      have hmlt : m < out0.length := hk
      rw [List.range_succ, List.foldl_append, List.foldl_cons, List.foldl_nil]
      have hch : ((List.range m).foldl (ImageProbabilityStep probs)
          (⟨channels, mask, out0, []⟩ : RunState)).channels = channels :=
        foldl_step_channels probs (List.range m) _
      rw [show ∀ st : RunState, (ImageProbabilityStep probs st m).outimg
          = st.outimg.set m
            ((probs 0).getD (st.channels 0 m) 0 *
             (probs 1).getD (st.channels 1 m) 0 *
             (probs 2).getD (st.channels 2 m) 0) from fun _ => rfl]
      rw [hch, ih hm]
      rw [set_append_of_length _ _ _ m (by simp),
        List.drop_eq_getElem_cons hmlt, List.set_cons_zero]
      rw [List.map_append]
      simp

/-- Reading a replicated list with the replicated value as default. -/
theorem getD_replicate {α : Type} (r j : ℕ) (a : α) :
    (List.replicate r a).getD j a = a := by
  rw [List.getD_eq_getElem?_getD, List.getElem?_getD_replicate_default_eq]

/-! ## Claim theorems -/

/-- C1: for every pair of dimensions, every triple of channel buffers
with a density per channel, the joint-probability loop sets output entry
`i` (for `i < W*H`) to the product of the three per-channel density
values indexed directly by pixel `i` raw intensity values. -/
theorem joint_probability_entry (d : Fin 3 → List ℚ)
    (channels : Fin 3 → ℕ → ℕ) (W H i : ℕ) (hi : i < W * H) :
    (JointProbabilityFromDensities d channels W H).getD i 0 =
      (d 0).getD (channels 0 i) 0 *
      (d 1).getD (channels 1 i) 0 *
      (d 2).getD (channels 2 i) 0 := by
  unfold JointProbabilityFromDensities
  rw [getD_map_range, if_pos hi]

/-- Witness for C1: the 1×1 image with channel values `(10, 20, 30)` and
three pre-supplied constant densities. -/
theorem joint_probability_entry_witness :
    (JointProbabilityFromDensities (fun _ => halfDensity) chTriple 1 1).getD 0 0 =
      halfDensity.getD 10 0 * halfDensity.getD 20 0 * halfDensity.getD 30 0 :=
  joint_probability_entry (fun _ => halfDensity) chTriple 1 1 0 (by decide)

/-- C7: `ImageProbability` obtains its three densities by one call of the
density estimator per channel, on that channel buffer, with the same
mask argument shared across all three calls. -/
theorem imageProbability_same_mask (channels : Fin 3 → ℕ → ℕ)
    (mask : ℕ → ℕ) (W H : ℕ) :
    ImageProbability channels mask W H =
      JointProbabilityFromDensities
        (fun c => ColorChannelKDE (channels c) mask W H true)
        channels W H := rfl

/-- C3 (amended): `ImageProbability` exposes no smoothing flag; it always
equals the spec-style joint probability with smoothing fixed to `true`
(the hardcoded `true` of `main.cc` line 104). -/
theorem imageProbability_always_smoothed (channels : Fin 3 → ℕ → ℕ)
    (mask : ℕ → ℕ) (W H : ℕ) :
    ImageProbability channels mask W H =
      jointProbabilitySpec channels mask W H true := rfl

/-- C3 (counterexample): on a 1×1 image the routine output matches the
smoothed spec variant and differs from the unsmoothed one, so no caller
choice of an unsmoothed density map exists in its contract. -/
theorem imageProbability_no_smoothing_choice :
    ImageProbability chTen oneMask 1 1 =
      jointProbabilitySpec chTen oneMask 1 1 true ∧
    ImageProbability chTen oneMask 1 1 ≠
      jointProbabilitySpec chTen oneMask 1 1 false := by
  refine ⟨rfl, ?_⟩
  have hT : ∀ c : Fin 3, ColorChannelKDE (chTen c) oneMask 1 1 true
      = List.replicate 256 0 := fun c =>
    kde_spike_core (chTen c) oneMask 1 1 0 10 (by decide) (by decide)
      (fun j hj _ => by omega) rfl (by decide) (by decide)
  have hF : ∀ c : Fin 3, ColorChannelKDE (chTen c) oneMask 1 1 false
      = (List.range 256).map fun u => if u = 10 then (1 : ℚ) else 0 :=
    fun c => kde_const_core (chTen c) oneMask 1 1 10
      ⟨0, by decide, by decide⟩ (fun i _ _ => rfl)
  have h1 : (ImageProbability chTen oneMask 1 1).getD 0 0 = 0 := by
    rw [ImageProbability_unfold]
    unfold JointProbabilityFromDensities
    rw [getD_map_range, if_pos (by decide : (0 : ℕ) < 1 * 1)]
    simp only [hT, getD_replicate]
    ring
  have h2 : (jointProbabilitySpec chTen oneMask 1 1 false).getD 0 0 = 1 := by
    unfold jointProbabilitySpec JointProbabilityFromDensities
    rw [getD_map_range, if_pos (by decide : (0 : ℕ) < 1 * 1)]
    simp only [hF]
    norm_num [chTen, getD_map_range]
  intro heq
  rw [heq] at h1
  rw [h1] at h2
  exact absurd h2 (by norm_num)

/-- C4: for every input whose mask selects zero pixels, the density
estimator performs no division and returns the documented well-defined
empty-sample density: the all-zero 256-entry list (so no NaN or Inf). -/
theorem kde_empty_mask (ch mask : ℕ → ℕ) (W H : ℕ) (mf : Bool)
    (h : ∀ i, i < W * H → mask i = 0) :
    ColorChannelKDE ch mask W H mf = List.replicate 256 0 ∧
    (ColorChannelKDE ch mask W H mf).length = 256 :=
  ⟨kde_empty_core ch mask W H mf h, ColorChannelKDE_length ch mask W H mf⟩

/-- Witness for C4: a 1×1 image with an all-zero mask, smoothing on. -/
theorem kde_empty_mask_witness :
    ColorChannelKDE (fun _ => 10) zeroMask 1 1 true = List.replicate 256 0 ∧
    (ColorChannelKDE (fun _ => 10) zeroMask 1 1 true).length = 256 :=
  kde_empty_mask (fun _ => 10) zeroMask 1 1 true (fun _ _ => rfl)

/-- C6: with smoothing disabled, whenever the (non-empty) set of selected
pixels all carry the same 8-bit value `v`, the density has 1 at bin `v`
and 0 at every other bin. -/
theorem kde_single_value_density (ch mask : ℕ → ℕ) (W H v : ℕ)
    (hv : v < 256)
    (hex : ∃ i, i < W * H ∧ mask i ≠ 0)
    (hall : ∀ i, i < W * H → mask i ≠ 0 → ch i = v) :
    (ColorChannelKDE ch mask W H false).getD v 0 = 1 ∧
    ∀ u, u < 256 → u ≠ v →
      (ColorChannelKDE ch mask W H false).getD u 0 = 0 := by
  have h := kde_const_core ch mask W H v hex hall
  constructor
  · rw [h, getD_map_range, if_pos hv, if_pos rfl]
  · intro u hu huv
    rw [h, getD_map_range, if_pos hu, if_neg huv]

/-- Witness for C6: the 2×2 scenario with channel `[0,0,255,255]` and
mask `[1,1,0,0]` gives the point mass at bin 0. -/
theorem kde_single_value_density_witness :
    (ColorChannelKDE ch2x2 mask2x2 2 2 false).getD 0 0 = 1 ∧
    ∀ u, u < 256 → u ≠ 0 →
      (ColorChannelKDE ch2x2 mask2x2 2 2 false).getD u 0 = 0 :=
  kde_single_value_density ch2x2 mask2x2 2 2 0 (by decide)
    ⟨0, by decide, by decide⟩ (by decide)

/-- C2 (amended): the density always has 256 non-negative entries; with
smoothing disabled and a non-empty sample of 8-bit values the entries
sum to exactly 1.  (With smoothing enabled the median filter does not
preserve total mass, so the sum can differ from 1.) -/
theorem kde_density_shape (ch mask : ℕ → ℕ) (W H : ℕ) (mf : Bool)
    (h8 : ∀ i, i < W * H → ch i < 256) :
    (ColorChannelKDE ch mask W H mf).length = 256 ∧
    (∀ x ∈ ColorChannelKDE ch mask W H mf, 0 ≤ x) ∧
    (mf = false → (∃ i, i < W * H ∧ mask i ≠ 0) →
      (ColorChannelKDE ch mask W H mf).sum = 1) :=
  ⟨ColorChannelKDE_length ch mask W H mf,
   ColorChannelKDE_nonneg ch mask W H mf,
   fun hmf hex => by
     subst hmf
     exact kde_sum_core ch mask W H h8 hex⟩

/-- Witness for C2 (amended): the unsmoothed density of a fully sampled
1×1 image sums to 1. -/
theorem kde_density_shape_witness :
    (ColorChannelKDE (fun _ => 10) oneMask 1 1 false).sum = 1 :=
  (kde_density_shape (fun _ => 10) oneMask 1 1 false (by decide)).2.2
    rfl ⟨0, by decide, by decide⟩

/-- C2 (counterexample): for the fully sampled 1×1 image of value 10 the
smoothed density does not sum to 1 even though the sample is non-empty:
the median filter erases the single-bin histogram. -/
theorem kde_smoothed_sum_breaks :
    (ColorChannelKDE (fun _ => 10) oneMask 1 1 true).sum ≠ 1 ∧
    nsamples oneMask 1 1 ≠ 0 := by
  constructor
  · rw [kde_spike_core (fun _ => 10) oneMask 1 1 0 10 (by decide)
      (by decide) (fun j hj _ => by omega) rfl (by decide) (by decide)]
    rw [List.sum_replicate]
    norm_num
  · decide

/-- C9 (corrected counterexample): smoothing an isolated single-pixel
spike does give an output different from the unsmoothed one, but its
entries do not sum to 1: the median filter eliminates the spike. -/
theorem kde_smoothing_spike_counterexample :
    (ColorChannelKDE (fun _ => 10) oneMask 1 1 true).sum ≠ 1 ∧
    ColorChannelKDE (fun _ => 10) oneMask 1 1 true ≠
      ColorChannelKDE (fun _ => 10) oneMask 1 1 false := by
  have hT := kde_spike_core (fun _ => 10) oneMask 1 1 0 10 (by decide)
    (by decide) (fun j hj _ => by omega) rfl (by decide) (by decide)
  have hF := kde_const_core (fun _ => 10) oneMask 1 1 10
    ⟨0, by decide, by decide⟩ (fun i _ _ => rfl)
  constructor
  · rw [hT, List.sum_replicate]
    norm_num
  · rw [hT, hF]
    intro heq
    have h10 := congrArg (fun l => l.getD 10 0) heq
    simp only [getD_replicate] at h10
    rw [getD_map_range] at h10
    norm_num at h10

/-- C9 (amended): on a histogram holding a single isolated spike (exactly
one sampled pixel, of interior value `v`), the smoothed density is
deterministic and differs from the unsmoothed density, but it is the
all-zero density: its entries sum to 0, not 1 — the width-3 median filter
removes the spike instead of redistributing its mass. -/
theorem kde_smoothing_spike_amended (ch mask : ℕ → ℕ) (W H i₀ v : ℕ)
    (hi : i₀ < W * H) (hm : mask i₀ ≠ 0)
    (huniq : ∀ j, j < W * H → mask j ≠ 0 → j = i₀)
    (hv : ch i₀ = v) (h0 : 0 < v) (h255 : v < 255) :
    ColorChannelKDE ch mask W H true = List.replicate 256 0 ∧
    (ColorChannelKDE ch mask W H true).sum = 0 ∧
    ColorChannelKDE ch mask W H true ≠ ColorChannelKDE ch mask W H false := by
  have hT := kde_spike_core ch mask W H i₀ v hi hm huniq hv h0 h255
  have hF := kde_const_core ch mask W H v ⟨i₀, hi, hm⟩
    fun j hj hmj => by rw [huniq j hj hmj, hv]
  refine ⟨hT, ?_, ?_⟩
  · rw [hT, List.sum_replicate]
    norm_num
  · rw [hT, hF]
    intro heq
    have hv256 : v < 256 := by omega
    have hvd := congrArg (fun l => l.getD v 0) heq
    simp only [getD_replicate] at hvd
    rw [getD_map_range, if_pos hv256, if_pos rfl] at hvd
    norm_num at hvd

/-- Witness for C9 (amended): the fully sampled 1×1 image of value 10. -/
theorem kde_smoothing_spike_amended_witness :
    ColorChannelKDE (fun _ => 10) oneMask 1 1 true = List.replicate 256 0 ∧
    (ColorChannelKDE (fun _ => 10) oneMask 1 1 true).sum = 0 ∧
    ColorChannelKDE (fun _ => 10) oneMask 1 1 true ≠
      ColorChannelKDE (fun _ => 10) oneMask 1 1 false :=
  kde_smoothing_spike_amended (fun _ => 10) oneMask 1 1 0 10 (by decide)
    (by decide) (fun j hj _ => by omega) rfl (by decide) (by decide)

/-- C5 (amended): the joint-probability routine performs no dimension
check at all: it succeeds exactly when every buffer has at least W*H
entries, and a shorter buffer produces an out-of-bounds dereference of
some scanned pixel index (modelled as `none`) rather than any
DimensionMismatch-style error value. -/
theorem imageProbability_no_dimension_check (channels : Fin 3 → List ℕ)
    (mask : List ℕ) (W H : ℕ) :
    (ImageProbabilityChecked channels mask W H = none ↔
      mask.length < W * H ∨ ∃ c : Fin 3, (channels c).length < W * H) ∧
    (ImageProbabilityChecked channels mask W H = none →
      ∃ i ∈ ImageProbabilityReads W H,
        mask.length ≤ i ∨ ∃ c : Fin 3, (channels c).length ≤ i) := by
  have hiff : ImageProbabilityChecked channels mask W H = none ↔
      mask.length < W * H ∨ ∃ c : Fin 3, (channels c).length < W * H := by
    unfold ImageProbabilityChecked
    split_ifs with h
    · constructor
      · intro hsome
        exact absurd hsome (by simp)
      · intro hcon
        rcases hcon with hm | ⟨c, hc⟩
        · have := h.1
          omega
        · have := h.2 c
          omega
    · constructor
      · intro _
        rcases Nat.lt_or_ge mask.length (W * H) with hm | hm
        · exact Or.inl hm
        · right
          by_contra hnc
          push_neg at hnc
          exact h ⟨hm, hnc⟩
      · intro _
        rfl
  refine ⟨hiff, fun hnone => ?_⟩
  rcases hiff.mp hnone with hm | ⟨c, hc⟩
  · exact ⟨mask.length, by simpa [ImageProbabilityReads] using hm,
      Or.inl le_rfl⟩
  · exact ⟨(channels c).length, by simpa [ImageProbabilityReads] using hc,
      Or.inr ⟨c, le_rfl⟩⟩

/-- Witness for C5 (amended): a 2×1 call whose channel 0 buffer has one
entry is undefined (out-of-bounds read), with no error value. -/
theorem imageProbability_no_dimension_check_witness :
    ImageProbabilityChecked chShort maskTwo 2 1 = none :=
  (imageProbability_no_dimension_check chShort maskTwo 2 1).1.mpr
    (Or.inr ⟨0, by decide⟩)

/-- C5 (counterexample): pixel index 1 is dereferenced by the scan but is
out of bounds for the one-entry channel 0 buffer; the call does not fail
with any dimension error — it reads out of bounds. -/
theorem imageProbability_oob_read :
    ImageProbabilityChecked chShort maskTwo 2 1 = none ∧
    1 ∈ ImageProbabilityReads 2 1 ∧ (chShort 0).length ≤ 1 := by
  refine ⟨?_, by decide, by decide⟩
  have hshort : ¬(2 * 1 ≤ maskTwo.length ∧
      ∀ c : Fin 3, 2 * 1 ≤ (chShort c).length) := by
    intro h
    exact absurd (h.2 0) (by decide)
  unfold ImageProbabilityChecked
  rw [if_neg hshort]

/-- C8: the joint-probability output has exactly W*H entries, every entry
is non-negative, and entry `i` is computed from the channel values of
pixel `i` (the same row-major pixel order as the inputs). -/
theorem imageProbability_shape (channels : Fin 3 → ℕ → ℕ)
    (mask : ℕ → ℕ) (W H : ℕ) :
    (ImageProbability channels mask W H).length = W * H ∧
    (∀ x ∈ ImageProbability channels mask W H, 0 ≤ x) ∧
    (∀ i, i < W * H → (ImageProbability channels mask W H).getD i 0 =
      (ColorChannelKDE (channels 0) mask W H true).getD (channels 0 i) 0 *
      (ColorChannelKDE (channels 1) mask W H true).getD (channels 1 i) 0 *
      (ColorChannelKDE (channels 2) mask W H true).getD (channels 2 i) 0) := by
  refine ⟨?_, ?_, ?_⟩
  · rw [ImageProbability_unfold]
    unfold JointProbabilityFromDensities
    simp
  · intro x hx
    rw [ImageProbability_unfold] at hx
    unfold JointProbabilityFromDensities at hx
    obtain ⟨i, _, rfl⟩ := List.mem_map.mp hx
    exact mul_nonneg (mul_nonneg
      (getD_nonneg (ColorChannelKDE_nonneg (channels 0) mask W H true) _)
      (getD_nonneg (ColorChannelKDE_nonneg (channels 1) mask W H true) _))
      (getD_nonneg (ColorChannelKDE_nonneg (channels 2) mask W H true) _)
  · intro i hi
    rw [ImageProbability_unfold]
    unfold JointProbabilityFromDensities
    rw [getD_map_range, if_pos hi]

/-- Witness for C8: the 1×1 image, fully sampled. -/
theorem imageProbability_shape_witness :
    (ImageProbability chTen oneMask 1 1).length = 1 * 1 ∧
    (ImageProbability chTen oneMask 1 1).getD 0 0 =
      (ColorChannelKDE (chTen 0) oneMask 1 1 true).getD (chTen 0 0) 0 *
      (ColorChannelKDE (chTen 1) oneMask 1 1 true).getD (chTen 1 0) 0 *
      (ColorChannelKDE (chTen 2) oneMask 1 1 true).getD (chTen 2 0) 0 :=
  ⟨(imageProbability_shape chTen oneMask 1 1).1,
   (imageProbability_shape chTen oneMask 1 1).2.2 0 (by decide)⟩

/-- C10: the imperative run of the joint-probability loop leaves the
channel buffers and mask untouched, produces exactly the functional
output in the W*H output entries, and its write trace visits each output
index below W*H exactly once and no index outside that range. -/
theorem imageProbability_frame (channels : Fin 3 → ℕ → ℕ)
    (mask : ℕ → ℕ) (W H : ℕ) (out0 : List ℚ)
    (hlen : out0.length = W * H) :
    (ImageProbabilityRun channels mask W H out0).channels = channels ∧
    (ImageProbabilityRun channels mask W H out0).mask = mask ∧
    (ImageProbabilityRun channels mask W H out0).outimg =
      ImageProbability channels mask W H ∧
    (ImageProbabilityRun channels mask W H out0).trace =
      List.range (W * H) ∧
    (∀ i, i < W * H →
      ((ImageProbabilityRun channels mask W H out0).trace).count i = 1) ∧
    (∀ i, i ∈ (ImageProbabilityRun channels mask W H out0).trace →
      i < W * H) := by
  have htr : (ImageProbabilityRun channels mask W H out0).trace
      = List.range (W * H) := by
    unfold ImageProbabilityRun
    rw [foldl_step_trace]
    simp
  refine ⟨?_, ?_, ?_, htr, ?_, ?_⟩
  · exact foldl_step_channels _ _ _
  · exact foldl_step_mask _ _ _
  · unfold ImageProbabilityRun
    rw [run_out_aux _ channels mask out0 (W * H) hlen.ge]
    have hdrop : out0.drop (W * H) = [] := by
      rw [← hlen]
      exact List.drop_length out0
    rw [hdrop, List.append_nil]
    rfl
  · intro i hi
    rw [htr]
    exact List.count_eq_one_of_mem (List.nodup_range _)
      (List.mem_range.mpr hi)
  · intro i hi
    rw [htr] at hi
    exact List.mem_range.mp hi

/-- Witness for C10: a 1×1 run over the initial output buffer `[37]`. -/
theorem imageProbability_frame_witness :
    (ImageProbabilityRun chTen oneMask 1 1 [37]).channels = chTen ∧
    (ImageProbabilityRun chTen oneMask 1 1 [37]).mask = oneMask ∧
    (ImageProbabilityRun chTen oneMask 1 1 [37]).outimg =
      ImageProbability chTen oneMask 1 1 ∧
    (ImageProbabilityRun chTen oneMask 1 1 [37]).trace =
      List.range (1 * 1) ∧
    (∀ i, i < 1 * 1 →
      ((ImageProbabilityRun chTen oneMask 1 1 [37]).trace).count i = 1) ∧
    (∀ i, i ∈ (ImageProbabilityRun chTen oneMask 1 1 [37]).trace →
      i < 1 * 1) :=
  imageProbability_frame chTen oneMask 1 1 [37] (by decide)
